import Mathlib

/-!
Verification of the MAME-Bridge-NetToWin relay engine (MAMEBridgeNetToWin.cpp).

The definitions below form a shallow embedding of the core relay code:
  - `CleanString`, `atoi`, `parseLine` model the line parser (`CleanString`,
    `ProcessLine` up to the command dispatch);
  - `BridgeState` models the global state (`g_nameToID`, `g_idToName`,
    `g_nextID`, `g_currentRomName`, `g_clients`);
  - `GetIDForName` models the identifier allocator;
  - `ProcessLine`, `registerClient`, `unregisterClient`, `respondGetIDString`
    model the message handlers, each returning the new state together with the
    list of externally visible events it emits (posted messages) plus the
    registry mutations needed to state temporal ordering properties;
  - `connectPrologue` / `disconnectEpilogue` / `connectionCycle` model one
    connect-read-disconnect generation of `NetworkThread`;
  - `netSplitStep` models the hardcoded carriage-return line splitting of the
    read loop; `splitAtTerminator` is the spec-side configurable variant.
-/

/-- Character class kept by `CleanString`: `isalnum(c) || c == '_' || c == '.'`. -/
def cleanChar (c : Char) : Bool :=
  c.isAlpha || c.isDigit || c = '_' || c = '.'

/-- Embedding of `CleanString` (source lines 323-331): keep only letters,
digits, underscore and period. -/
def CleanString (s : List Char) : List Char :=
  s.filter cleanChar

/-- C whitespace class used by `atoi` before the number. -/
def isSpaceC (c : Char) : Bool :=
  c = ' ' || c = '\t' || c = '\n' || c = '\x0b' || c = '\x0c' || c = '\r'

/-- Digit accumulation of the C runtime's `atoi` (`total = 10 * total +
digit` in a 32-bit register): consume leading decimal digits, wrapping
modulo `2^32` at each step. -/
def atoiDigits : List Char → Nat → Nat
  | [], acc => acc
  | c :: cs, acc =>
    if c.isDigit then atoiDigits cs ((acc * 10 + (c.toNat - 48)) % 4294967296)
    else acc

/-- Reinterpret the 32-bit accumulator as a signed two's-complement
`int`: representatives at or above `2^31` are negative. -/
def toInt32 (n : Nat) : Int :=
  if n % 4294967296 < 2147483648 then ((n % 4294967296 : Nat) : Int)
  else ((n % 4294967296 : Nat) : Int) - 4294967296

/-- Embedding of the toolchain's 32-bit `std::atoi`: skip leading
whitespace, optional sign, then leading decimal digits accumulated in
32-bit wrapping arithmetic; `0` when no digits are present.  The minus
branch negates the 32-bit accumulator in two's complement. -/
def atoi (s : String) : Int :=
  match s.data.dropWhile isSpaceC with
  | [] => 0
  | c :: rest =>
    if c = '-' then toInt32 ((4294967296 - atoiDigits rest 0 % 4294967296) % 4294967296)
    else if c = '+' then toInt32 (atoiDigits rest 0)
    else toInt32 (atoiDigits (c :: rest) 0)

/-- Split a line at the first `=` (the `line.find("=")` / `substr` pair in
`ProcessLine`): `none` when the line holds no `=`. -/
def splitAtEq : List Char → Option (List Char × List Char)
  | [] => none
  | c :: cs =>
    if c = '=' then some ([], cs)
    else
      match splitAtEq cs with
      | none => none
      | some (l, r) => some (c :: l, r)

/-- The trailing-carriage-return trim at the top of `ProcessLine`. -/
def stripCR (l : List Char) : List Char :=
  match l.getLast? with
  | some c => if c = '\r' then l.dropLast else l
  | none => l

/-- Classification of one input line, mirroring the dispatch in `ProcessLine`
(source lines 334-369). -/
inductive ParseResult where
  | update (name : String) (value : Int)
  | start (title : String)
  | stopLine
  | noop
deriving DecidableEq

/-- The parsing part of `ProcessLine`: trim a trailing `\r`, drop empty lines
and lines with no `=`, sanitize both sides, dispatch on the reserved
keywords, and convert the value with `atoi`. -/
def parseLine (line : String) : ParseResult :=
  let l := stripCR line.data
  if l = [] then ParseResult.noop
  else
    match splitAtEq l with
    | none => ParseResult.noop
    | some (lhs, rhs) =>
      let name := String.mk (CleanString lhs)
      let valStr := String.mk (CleanString rhs)
      if name = "mame_start" then ParseResult.start valStr
      else if name = "mame_stop" then ParseResult.stopLine
      else ParseResult.update name (atoi valStr)

/-- Association-list lookup, modelling `std::map::find` / `count`. -/
def lookupAL {α β : Type} [DecidableEq α] : List (α × β) → α → Option β
  | [], _ => none
  | (k, v) :: rest, a => if k = a then some v else lookupAL rest a

/-- Association-list assignment, modelling `std::map::operator[] =`:
replace the entry when the key is present, append it otherwise. -/
def setAL {α β : Type} [DecidableEq α] : List (α × β) → α → β → List (α × β)
  | [], k, v => [(k, v)]
  | (k', v') :: rest, k, v =>
    if k' = k then (k, v) :: rest else (k', v') :: setAL rest k v

/-- The global mutable state of the bridge: `g_nameToID`, `g_idToName`,
`g_nextID`, `g_currentRomName` and `g_clients` (source lines 77-85).
Window handles are modelled as naturals. -/
structure BridgeState where
  nameToID : List (String × Nat)
  idToName : List (Nat × String)
  nextID : Nat
  currentRomName : String
  clients : List Nat
deriving DecidableEq

/-- The sentinel session title `"___empty"`. -/
def sentinelTitle : String := "___empty"

/-- The state at process start: empty maps, next ID `1`, sentinel title,
no clients. -/
def initialBridgeState : BridgeState :=
  { nameToID := [], idToName := [], nextID := 1
    currentRomName := sentinelTitle, clients := [] }

/-- Embedding of `GetIDForName` (source lines 152-167): return the existing
ID when the name is mapped, otherwise assign `g_nextID`, store both
directions and post-increment the counter. -/
def GetIDForName (st : BridgeState) (name : String) : Nat × BridgeState :=
  match lookupAL st.nameToID name with
  | some id => (id, st)
  | none =>
    (st.nextID,
      { st with
        nameToID := setAL st.nameToID name st.nextID
        idToName := setAL st.idToName st.nextID name
        nextID := st.nextID + 1 })

/-- Externally observable happenings of the bridge: posted window messages
(`postStart`, `postStop`, `postUpdate`, `sendCopyData`) and the registry
mutations whose ordering the temporal properties talk about (`setTitle`,
`clearRegistry`).  `postStart`/`postStop` go to `HWND_BROADCAST`;
`postUpdate` and `sendCopyData` are addressed to a single window. -/
inductive Event where
  | postStart (title : String)
  | postStop
  | postUpdate (client : Nat) (id : Nat) (value : Int)
  | sendCopyData (dest : Nat) (id : Nat) (name : String) (cbData : Nat)
  | setTitle (t : String)
  | clearRegistry
deriving DecidableEq

/-- Embedding of `ProcessLine`'s effects (source lines 334-377): a
`mame_start` line stores the new title (also at reserved ID 0) and posts a
start broadcast; a `mame_stop` line is ignored; any other `name = value`
line resolves the name and posts an update to every registered client. -/
def ProcessLine (st : BridgeState) (line : String) : BridgeState × List Event :=
  match parseLine line with
  | ParseResult.start t =>
    ({ st with currentRomName := t, idToName := setAL st.idToName 0 t },
      [Event.setTitle t, Event.postStart t])
  | ParseResult.stopLine => (st, [])
  | ParseResult.noop => (st, [])
  | ParseResult.update name v =>
    let r := GetIDForName st name
    (r.2, r.2.clients.map (fun c => Event.postUpdate c r.1 v))

/-- Process a list of lines in order, threading the state and
concatenating the emitted events. -/
def processLines : BridgeState → List String → BridgeState × List Event
  | st, [] => (st, [])
  | st, l :: ls =>
    let r1 := ProcessLine st l
    let r2 := processLines r1.1 ls
    (r2.1, r1.2 ++ r2.2)

/-- Embedding of the `om_mame_register_client` handler (source lines
177-186): append the client handle; no start message is sent back. -/
def registerClient (st : BridgeState) (client : Nat) : BridgeState × List Event :=
  ({ st with clients := st.clients ++ [client] }, [])

/-- The erase-first-match-then-break loop of the
`om_mame_unregister_client` handler (source lines 189-199). -/
def eraseFirst : List Nat → Nat → List Nat
  | [], _ => []
  | c :: rest, x => if c = x then rest else c :: eraseFirst rest x

/-- Embedding of the `om_mame_unregister_client` handler. -/
def unregisterClient (st : BridgeState) (client : Nat) : BridgeState × List Event :=
  ({ st with clients := eraseFirst st.clients client }, [])

/-- The name resolution inside the `om_mame_get_id_string` handler (source
lines 202-209): ID 0 answers with the current ROM name, other IDs are
looked up in `g_idToName`, unknown IDs give the empty string. -/
def reverseLookup (st : BridgeState) (id : Nat) : String :=
  if id = 0 then st.currentRomName
  else
    match lookupAL st.idToName id with
    | some n => n
    | none => ""

/-- `sizeof(copydata_id_string)` for `struct { uint32_t id; char string[1]; }`
(4-byte member, 1 char, padded to 8). -/
def copydataHeaderSize : Nat := 8

/-- Embedding of the `om_mame_get_id_string` handler (source lines 202-223):
build the `(id, name)` copy-data payload, whose declared byte count is
`sizeof(copydata_id_string) + name.length() + 1`, and send it with
`SendMessage` to the requester window stored in `wParam`. -/
def respondGetIDString (st : BridgeState) (wParam : Nat) (lParam : Nat) :
    BridgeState × List Event :=
  let name := reverseLookup st lParam
  (st, [Event.sendCopyData wParam lParam name (copydataHeaderSize + name.length + 1)])

/-- The connect-success prologue of `NetworkThread` (source lines 395-411):
reset the ROM name and reserved ID 0 to the sentinel, then post the forced
start broadcast. -/
def connectPrologue (st : BridgeState) : BridgeState × List Event :=
  ({ st with currentRomName := sentinelTitle
             idToName := setAL st.idToName 0 sentinelTitle },
    [Event.setTitle sentinelTitle, Event.postStart sentinelTitle])

/-- The disconnect cleanup of `NetworkThread` (source lines 431-441): post
the stop broadcast, then reset the title and clear both ID maps,
restarting the counter at 1. -/
def disconnectEpilogue (st : BridgeState) : BridgeState × List Event :=
  ({ st with currentRomName := sentinelTitle
             nameToID := []
             idToName := []
             nextID := 1 },
    [Event.postStop, Event.setTitle sentinelTitle, Event.clearRegistry])

/-- One full connection generation: connect prologue, processing of all the
lines received during the session, disconnect epilogue. -/
def connectionCycle (st : BridgeState) (lines : List String) :
    BridgeState × List Event :=
  let r1 := connectPrologue st
  let r2 := processLines r1.1 lines
  let r3 := disconnectEpilogue r2.1
  (r3.1, r1.2 ++ r2.2 ++ r3.2)

/-- Index of the first carriage return, modelling `netBuffer.find('\r')`. -/
def findCR : List Char → Option Nat
  | [] => none
  | c :: rest => if c = '\r' then some 0 else (findCR rest).map (· + 1)

/-- Embedding of the inner splitting loop of `NetworkThread`'s read loop
(source lines 424-428): repeatedly find `'\r'`, cut the line before it,
erase through it; the remainder with no `'\r'` is the retained fragment.
The terminator is hardcoded to the carriage return, as in the source. -/
def netSplitStep (buf : List Char) : List (List Char) × List Char :=
  match h : findCR buf with
  | none => ([], buf)
  | some pos =>
    let res := netSplitStep (buf.drop (pos + 1))
    (buf.take pos :: res.1, res.2)
termination_by buf.length
decreasing_by
  simp_wf
  have hbound : ∀ (l : List Char) (q : Nat), findCR l = some q → q < l.length := by
    intro l
    induction l with
    | nil => intro q hq; simp [findCR] at hq
    | cons c rest ih =>
      intro q hq
      by_cases hc : c = '\r'
      · simp [findCR, hc] at hq
        simp [List.length_cons]
        omega
      · simp [findCR, hc] at hq
        obtain ⟨r, hr, rfl⟩ := hq
        have := ih r hr
        simp [List.length_cons]
        omega
  have := hbound buf pos h
  simp [List.length_drop]
  exact Nat.zero_lt_of_lt this

/-- Spec-side splitting, following the spec's words: repeatedly split off
complete lines at a CONFIGURABLE terminator character, retaining the
trailing partial fragment. -/
def splitAtTerminator (term : Char) : List Char → List (List Char) × List Char
  | [] => ([], [])
  | c :: rest =>
    let res := splitAtTerminator term rest
    if c = term then ([] :: res.1, res.2)
    else
      match res.1 with
      | [] => ([], c :: res.2)
      | l :: ls => ((c :: l) :: ls, res.2)

/-- One pass of the read loop body (source lines 418-428): append the chunk
just received to the persistent buffer, split off the complete lines, hand
each to `ProcessLine` in order, retain the fragment. -/
def handleChunk (st : BridgeState) (netBuffer chunk : List Char) :
    BridgeState × List Char × List Event :=
  let buf := netBuffer ++ chunk
  let res := netSplitStep buf
  let pr := processLines st (res.1.map String.mk)
  (pr.1, res.2, pr.2)

/-- The registry invariant maintained by `GetIDForName`: the two maps are
mutually inverse, every issued ID lies in `[1, nextID)`, and the IDs stored
in `g_idToName`, in insertion order, are exactly `1, 2, ..., nextID - 1`. -/
def RegInv (st : BridgeState) : Prop :=
  1 ≤ st.nextID ∧
  (∀ n id, lookupAL st.nameToID n = some id ↔ lookupAL st.idToName id = some n) ∧
  (∀ n id, lookupAL st.nameToID n = some id → 1 ≤ id ∧ id < st.nextID) ∧
  st.idToName.map Prod.fst = List.range' 1 (st.nextID - 1)

/-- `resolve` for a sequence of names: fold `GetIDForName` over the list,
starting from the empty registry. -/
def runResolves (names : List String) : BridgeState :=
  names.foldl (fun st n => (GetIDForName st n).2) initialBridgeState

/-- Whether an event goes to the broadcast channel (`HWND_BROADCAST`). -/
def isBroadcast : Event → Bool
  | Event.postStart _ => true
  | Event.postStop => true
  | _ => false

/-- Length of the name carried by a reply event (0 for other events). -/
def eventNameLen : Event → Nat
  | Event.sendCopyData _ _ nm _ => nm.length
  | _ => 0

/-- The state reached from process start by the connect prologue and one
line that registers an `n`-letter output name. -/
def stateWithLongName (n : Nat) : BridgeState :=
  (ProcessLine (connectPrologue initialBridgeState).1
    (String.mk (List.replicate n 'a' ++ ['=', '1']))).1

example : parseLine "lamp0 = 1" = ParseResult.update "lamp0" 1 := by decide
example : parseLine "bogus$$name = notanumber" = ParseResult.update "bogusname" 0 := by decide
example : parseLine "lamp0 = -1" = ParseResult.update "lamp0" 1 := by decide
example : parseLine "mame_start = pacman" = ParseResult.start "pacman" := by decide
example : parseLine "mame_stop = 1" = ParseResult.stopLine := by decide
example : parseLine "garbage" = ParseResult.noop := by decide
example : splitAtTerminator '\r' ("a=1\rb=2\rfrag".data) =
    (["a=1".data, "b=2".data], "frag".data) := by decide

/-! ## Association-list lemmas -/

theorem lookupAL_setAL {α β : Type} [DecidableEq α]
    (l : List (α × β)) (k : α) (v : β) (a : α) :
    lookupAL (setAL l k v) a = if k = a then some v else lookupAL l a := by
  induction l with
  | nil =>
    by_cases h : k = a <;> simp [setAL, lookupAL, h]
  | cons p rest ih =>
    obtain ⟨k', v'⟩ := p
    by_cases hk : k' = k
    · subst hk
      by_cases h : k' = a <;> simp [setAL, lookupAL, h]
    · by_cases h : k' = a
      · subst h
        have : ¬ k = k' := fun hh => hk hh.symm
        simp [setAL, lookupAL, hk, this]
      · simp [setAL, lookupAL, hk, h, ih]

theorem setAL_absent {α β : Type} [DecidableEq α]
    {l : List (α × β)} {k : α} (v : β) (h : lookupAL l k = none) :
    setAL l k v = l ++ [(k, v)] := by
  induction l with
  | nil => simp [setAL]
  | cons p rest ih =>
    obtain ⟨k', v'⟩ := p
    by_cases hk : k' = k
    · simp [lookupAL, hk] at h
    · simp [lookupAL, hk] at h
      simp [setAL, hk, ih h]

/-! ## Allocator invariant (claim C1) -/

theorem RegInv_initial : RegInv initialBridgeState := by
  refine ⟨le_refl 1, ?_, ?_, ?_⟩ <;> simp [initialBridgeState, lookupAL]

theorem RegInv_step {st : BridgeState} (name : String) (h : RegInv st) :
    RegInv (GetIDForName st name).2 := by
  obtain ⟨hk, hbij, hrange, hmono⟩ := h
  match hl : lookupAL st.nameToID name with
  | some id => simpa [GetIDForName, hl] using ⟨hk, hbij, hrange, hmono⟩
  | none =>
    have hIdNone : lookupAL st.idToName st.nextID = none := by
      cases hI : lookupAL st.idToName st.nextID with
      | none => rfl
      | some m =>
        have := (hbij m st.nextID).mpr hI
        have := (hrange m st.nextID this).2
        omega
    refine ⟨?_, ?_, ?_, ?_⟩
    · simp only [GetIDForName, hl]
      omega
    · intro n id
      simp only [GetIDForName, hl]
      rw [lookupAL_setAL, lookupAL_setAL]
      by_cases hn : name = n
      · subst hn
        by_cases hid : st.nextID = id
        · simp [hid]
        · simp [hid]
          intro hcon
          have := (hbij name id).mpr hcon
          rw [hl] at this
          exact Option.noConfusion this
      · by_cases hid : st.nextID = id
        · subst hid
          simp [hn]
          intro hN
          have := (hrange n st.nextID hN).2
          omega
        · simp [hn, hid]
          exact hbij n id
    · intro n id
      simp only [GetIDForName, hl]
      rw [lookupAL_setAL]
      by_cases hn : name = n
      · simp [hn]
        intro hEq
        omega
      · simp [hn]
        intro hN
        have := hrange n id hN
        omega
    · obtain ⟨m, hm⟩ : ∃ m, st.nextID = m + 1 := ⟨st.nextID - 1, by omega⟩
      simp only [GetIDForName, hl]
      rw [setAL_absent _ hIdNone, List.map_append, hmono, hm]
      simp [List.range'_concat, Nat.add_comm]

theorem lookup_persist_step {st : BridgeState} {n : String} {id : Nat}
    (m : String) (h : lookupAL st.nameToID n = some id) :
    lookupAL ((GetIDForName st m).2).nameToID n = some id := by
  match hl : lookupAL st.nameToID m with
  | some i => simpa [GetIDForName, hl] using h
  | none =>
    simp only [GetIDForName, hl]
    rw [lookupAL_setAL]
    by_cases hm : m = n
    · subst hm
      rw [hl] at h
      exact Option.noConfusion h
    · simp [hm, h]

theorem lookup_self_after (st : BridgeState) (n : String) :
    lookupAL ((GetIDForName st n).2).nameToID n = some (GetIDForName st n).1 := by
  match hl : lookupAL st.nameToID n with
  | some i => simp [GetIDForName, hl]
  | none =>
    simp only [GetIDForName, hl]
    rw [lookupAL_setAL]
    simp

theorem lookup_persist_fold {st : BridgeState} {n : String} {id : Nat}
    (ms : List String) (h : lookupAL st.nameToID n = some id) :
    lookupAL (ms.foldl (fun st m => (GetIDForName st m).2) st).nameToID n = some id := by
  induction ms generalizing st with
  | nil => simpa using h
  | cons m ms ih =>
    simp only [List.foldl_cons]
    exact ih (lookup_persist_step m h)

theorem RegInv_fold {st : BridgeState} (ms : List String) (h : RegInv st) :
    RegInv (ms.foldl (fun st m => (GetIDForName st m).2) st) := by
  induction ms generalizing st with
  | nil => simpa using h
  | cons m ms ih =>
    simp only [List.foldl_cons]
    exact ih (RegInv_step m h)

theorem mapped_after_fold {st : BridgeState} {n : String}
    (ms : List String) (h : n ∈ ms) :
    ∃ id, lookupAL
      (ms.foldl (fun st m => (GetIDForName st m).2) st).nameToID n = some id := by
  induction ms generalizing st with
  | nil => cases h
  | cons m ms ih =>
    rcases List.mem_cons.mp h with rfl | hmem
    · exact ⟨_, lookup_persist_fold ms (lookup_self_after st n)⟩
    · exact ih hmem

theorem runResolves_mapped {names : List String} {n : String} (h : n ∈ names) :
    ∃ id, lookupAL (runResolves names).nameToID n = some id :=
  mapped_after_fold names h


/-- C1: within one connection generation, starting from the empty registry,
`resolve` (`GetIDForName`) is idempotent per name — a second resolve of an
already-mapped name returns the existing ID and leaves the state unchanged —
the name-to-ID and ID-to-name tables are mutually inverse (so no two names
share an ID and no two IDs share a name), and the IDs are issued
monotonically `1, 2, ...`, so ID 0 is never issued by the allocator. -/
theorem C1_resolve_registry (names : List String) :
    (∀ n, n ∈ names → ∃ id, lookupAL (runResolves names).nameToID n = some id ∧
        GetIDForName (runResolves names) n = (id, runResolves names)) ∧
    (∀ n id, lookupAL (runResolves names).nameToID n = some id ↔
        lookupAL (runResolves names).idToName id = some n) ∧
    (∀ n₁ n₂ id, lookupAL (runResolves names).nameToID n₁ = some id →
        lookupAL (runResolves names).nameToID n₂ = some id → n₁ = n₂) ∧
    (∀ n id, lookupAL (runResolves names).nameToID n = some id → 1 ≤ id) ∧
    (runResolves names).idToName.map Prod.fst
      = List.range' 1 ((runResolves names).nextID - 1) := by
  have hinv : RegInv (runResolves names) := RegInv_fold names RegInv_initial
  obtain ⟨hk, hbij, hrange, hmono⟩ := hinv
  refine ⟨?_, hbij, ?_, ?_, hmono⟩
  · intro n hn
    obtain ⟨id, hid⟩ := runResolves_mapped hn
    exact ⟨id, hid, by simp [GetIDForName, hid]⟩
  · intro n₁ n₂ id h₁ h₂
    have e₁ := (hbij n₁ id).mp h₁
    have e₂ := (hbij n₂ id).mp h₂
    rw [e₁] at e₂
    exact Option.some.inj e₂
  · intro n id h
    exact (hrange n id h).1

theorem C1_witness :
    lookupAL (runResolves ["lamp0", "led1", "lamp0"]).nameToID "lamp0" = some 1 ∧
    GetIDForName (runResolves ["lamp0", "led1", "lamp0"]) "lamp0"
      = (1, runResolves ["lamp0", "led1", "lamp0"]) := by
  obtain ⟨id, h1, h2⟩ :=
    (C1_resolve_registry ["lamp0", "led1", "lamp0"]).1 "lamp0" (by decide)
  have hv : lookupAL (runResolves ["lamp0", "led1", "lamp0"]).nameToID "lamp0"
      = some 1 := by decide
  have hid : id = 1 := Option.some.inj (h1.symm.trans hv)
  subst hid
  exact ⟨h1, h2⟩

/-- C3: after a disconnect (which runs the cleanup of `NetworkThread`)
followed by a successful reconnect (which runs the connect prologue), the
allocator restarts at 1: the name table is empty, the ID table holds no
general entry (only reserved ID 0 carries the sentinel title), and the
first resolve of any name returns ID 1. -/
theorem C3_reset_on_reconnect (st : BridgeState) (lines : List String) :
    ((connectPrologue (connectionCycle st lines).1).1).nameToID = [] ∧
    ((connectPrologue (connectionCycle st lines).1).1).nextID = 1 ∧
    (∀ id, id ≠ 0 →
      lookupAL ((connectPrologue (connectionCycle st lines).1).1).idToName id = none) ∧
    (∀ name, (GetIDForName ((connectPrologue (connectionCycle st lines).1).1) name).1 = 1) := by
  refine ⟨rfl, rfl, ?_, ?_⟩
  · intro id hid
    show lookupAL (setAL [] 0 sentinelTitle) id = none
    have h0 : ¬ (0 : Nat) = id := fun h => hid h.symm
    simp [setAL, lookupAL, h0]
  · intro name
    rfl

theorem C3_witness :
    lookupAL ((connectPrologue
      (connectionCycle initialBridgeState ["lamp0 = 1"]).1).1).idToName 5 = none ∧
    (GetIDForName ((connectPrologue
      (connectionCycle initialBridgeState ["lamp0 = 1"]).1).1) "lamp0").1 = 1 :=
  ⟨(C3_reset_on_reconnect initialBridgeState ["lamp0 = 1"]).2.2.1 5 (by decide),
   (C3_reset_on_reconnect initialBridgeState ["lamp0 = 1"]).2.2.2 "lamp0"⟩

/-- C4: on the input line `"bogus$$name = notanumber"` sanitization strips
the characters outside letters, digits, underscore and period from both
sides of the first `=`, and the non-numeric sanitized value converts to
the default integer 0, so the parse yields `Update{"bogusname", 0}`. -/
theorem C4_sanitize_and_default :
    CleanString ("bogus$$name ".data) = "bogusname".data ∧
    CleanString (" notanumber".data) = "notanumber".data ∧
    atoi "notanumber" = 0 ∧
    parseLine "bogus$$name = notanumber" = ParseResult.update "bogusname" 0 :=
  ⟨by decide, by decide, by decide, by decide⟩

/-- C5: `reverseLookup` answers ID 0 with the current session title,
independently of the general ID table (sentinel before any start event,
the announced title after a start event), and answers any other unmapped
ID with the empty string rather than failing. -/
theorem C5_reverse_lookup (st : BridgeState) :
    (∀ tbl, reverseLookup { st with idToName := tbl } 0 = st.currentRomName) ∧
    reverseLookup initialBridgeState 0 = sentinelTitle ∧
    (∀ l t, parseLine l = ParseResult.start t →
      reverseLookup (ProcessLine st l).1 0 = t) ∧
    (∀ id, id ≠ 0 → lookupAL st.idToName id = none → reverseLookup st id = "") := by
  refine ⟨fun tbl => rfl, rfl, ?_, ?_⟩
  · intro l t h
    simp [ProcessLine, h, reverseLookup]
  · intro id hid hlk
    simp [reverseLookup, hid, hlk]

theorem C5_witness :
    reverseLookup (ProcessLine initialBridgeState "mame_start = pacman").1 0 = "pacman" ∧
    reverseLookup initialBridgeState 7 = "" :=
  ⟨(C5_reverse_lookup initialBridgeState).2.2.1 "mame_start = pacman" "pacman" (by decide),
   (C5_reverse_lookup initialBridgeState).2.2.2 7 (by decide) (by decide)⟩

/-! ## Consumer registry lemmas (claims C9 and C10) -/

theorem eraseFirst_not_mem {l : List Nat} {x : Nat} (h : x ∉ l) :
    eraseFirst l x = l := by
  induction l with
  | nil => rfl
  | cons c rest ih =>
    have hc : ¬ c = x := fun he => h (he ▸ List.mem_cons_self c rest)
    have hr : x ∉ rest := fun hm => h (List.mem_cons_of_mem c hm)
    simp [eraseFirst, hc, ih hr]

theorem eraseFirst_count_self {l : List Nat} {x : Nat} (h : x ∈ l) :
    (eraseFirst l x).count x + 1 = l.count x := by
  induction l with
  | nil => cases h
  | cons c rest ih =>
    by_cases hc : c = x
    · subst hc
      simp [eraseFirst, List.count_cons_self]
    · have hm : x ∈ rest := by
        rcases List.mem_cons.mp h with he | hm
        · exact absurd he.symm hc
        · exact hm
      have hxc : ¬ x = c := fun he => hc he.symm
      simp [eraseFirst, hc, List.count_cons, hxc]
      exact ih hm

theorem GetIDForName_clients (st : BridgeState) (n : String) :
    ((GetIDForName st n).2).clients = st.clients := by
  unfold GetIDForName
  cases lookupAL st.nameToID n <;> simp

/-- C9: `unregister` removes at most one occurrence of a handle — after
registering the same consumer twice, one unregister leaves exactly one
extra registration, and that consumer still receives the updates broadcast
for lines parsed afterwards; unregistering an absent consumer leaves the
state unchanged and emits nothing. -/
theorem C9_unregister_once :
    (∀ st c, ((unregisterClient (registerClient (registerClient st c).1 c).1 c).1).clients.count c
        = st.clients.count c + 1) ∧
    (∀ st c l n v, parseLine l = ParseResult.update n v → c ∈ st.clients →
        Event.postUpdate c (GetIDForName st n).1 v ∈ (ProcessLine st l).2) ∧
    (∀ st c, c ∉ st.clients → unregisterClient st c = (st, [])) := by
  refine ⟨?_, ?_, ?_⟩
  · intro st c
    show (eraseFirst ((st.clients ++ [c]) ++ [c]) c).count c = st.clients.count c + 1
    have hmem : c ∈ (st.clients ++ [c]) ++ [c] := by simp
    have h := eraseFirst_count_self hmem
    simp [List.count_append] at h
    simpa using h
  · intro st c l n v hp hc
    simp only [ProcessLine, hp]
    rw [GetIDForName_clients]
    simp only [List.mem_map]
    exact ⟨c, hc, rfl⟩
  · intro st c hc
    show ({ st with clients := eraseFirst st.clients c }, ([] : List Event)) = (st, [])
    rw [eraseFirst_not_mem hc]

theorem C9_witness :
    ((unregisterClient (registerClient (registerClient initialBridgeState 7).1 7).1 7).1).clients.count 7
      = initialBridgeState.clients.count 7 + 1 ∧
    Event.postUpdate 7 (GetIDForName { initialBridgeState with clients := [7] } "lamp0").1 1
      ∈ (ProcessLine { initialBridgeState with clients := [7] } "lamp0 = 1").2 ∧
    unregisterClient initialBridgeState 9 = (initialBridgeState, []) :=
  ⟨C9_unregister_once.1 initialBridgeState 7,
   C9_unregister_once.2.1 { initialBridgeState with clients := [7] } 7 "lamp0 = 1" "lamp0" 1
     (by decide) (by decide),
   C9_unregister_once.2.2 initialBridgeState 9 (by decide)⟩

/-- C10: `register` only appends the handle to the consumer list: it emits
no event at all (in particular no start broadcast to the registering
consumer), leaves the name registry, the session title, the ID counter and
the other consumers untouched, and a consumer that is not registered never
receives an update from a processed line. -/
theorem C10_register_frame :
    (∀ st c, (registerClient st c).2 = []) ∧
    (∀ st c, (registerClient st c).1.nameToID = st.nameToID ∧
        (registerClient st c).1.idToName = st.idToName ∧
        (registerClient st c).1.currentRomName = st.currentRomName ∧
        (registerClient st c).1.nextID = st.nextID ∧
        (registerClient st c).1.clients = st.clients ++ [c]) ∧
    (∀ st c l id v, c ∉ st.clients →
        Event.postUpdate c id v ∉ (ProcessLine st l).2) := by
  refine ⟨fun st c => rfl, fun st c => ⟨rfl, rfl, rfl, rfl, rfl⟩, ?_⟩
  intro st c l id v hc
  cases hp : parseLine l with
  | start t => simp [ProcessLine, hp]
  | stopLine => simp [ProcessLine, hp]
  | noop => simp [ProcessLine, hp]
  | update n v' =>
    simp only [ProcessLine, hp]
    rw [GetIDForName_clients]
    simp only [List.mem_map]
    rintro ⟨a, ha, hEq⟩
    have : a = c := by
      have := hEq
      injection this
    exact hc (this ▸ ha)

theorem C10_witness :
    (registerClient initialBridgeState 7).2 = [] ∧
    Event.postUpdate 7 1 1 ∉ (ProcessLine initialBridgeState "lamp0 = 1").2 :=
  ⟨C10_register_frame.1 initialBridgeState 7,
   C10_register_frame.2.2 initialBridgeState 7 "lamp0 = 1" 1 1 (by decide)⟩

/-! ## Sign lemmas for sanitized values (claim C8) -/

theorem space_not_clean {c : Char} (h : isSpaceC c = true) : cleanChar c = false := by
  simp [isSpaceC] at h
  rcases h with ((((rfl | rfl) | rfl) | rfl) | rfl) | rfl <;> decide

theorem clean_not_space {c : Char} (h : cleanChar c = true) : isSpaceC c = false := by
  cases hs : isSpaceC c
  · rfl
  · rw [space_not_clean hs] at h
    exact Bool.noConfusion h

theorem clean_not_minus {c : Char} (h : cleanChar c = true) : ¬ c = '-' := by
  intro he
  subst he
  exact absurd h (by decide)

theorem clean_not_plus {c : Char} (h : cleanChar c = true) : ¬ c = '+' := by
  intro he
  subst he
  exact absurd h (by decide)

theorem atoiDigits_lt (cs : List Char) :
    ∀ acc, acc < 4294967296 → atoiDigits cs acc < 4294967296 := by
  induction cs with
  | nil => intro acc h; exact h
  | cons c cs ih =>
    intro acc h
    by_cases hd : c.isDigit
    · simp only [atoiDigits, hd, if_true]
      exact ih _ (Nat.mod_lt _ (by decide))
    · simp only [atoiDigits, hd, if_false]
      exact h

theorem toInt32_range (m : Nat) :
    -2147483648 ≤ toInt32 m ∧ toInt32 m < 2147483648 := by
  have hm : m % 4294967296 < 4294967296 := Nat.mod_lt _ (by decide)
  unfold toInt32
  by_cases h : m % 4294967296 < 2147483648 <;> simp [h] <;> omega

theorem toInt32_neg_iff {m : Nat} (hm : m < 4294967296) :
    toInt32 m < 0 ↔ 2147483648 ≤ m := by
  unfold toInt32
  rw [Nat.mod_eq_of_lt hm]
  by_cases h : m < 2147483648 <;> simp [h] <;> omega

/-- On a sanitized value (no whitespace, no sign characters) `atoi` is
exactly the signed reinterpretation of the 32-bit digit accumulation. -/
theorem atoi_clean_eq (rhs : List Char) :
    atoi (String.mk (CleanString rhs)) = toInt32 (atoiDigits (CleanString rhs) 0) := by
  have hall : ∀ c ∈ CleanString rhs, cleanChar c = true :=
    fun c hc => (List.mem_filter.mp hc).2
  have hdrop : (CleanString rhs).dropWhile isSpaceC = CleanString rhs := by
    cases h : CleanString rhs with
    | nil => simp
    | cons c cs =>
      have hc := hall c (by rw [h]; exact List.mem_cons_self c cs)
      rw [List.dropWhile_cons]
      simp [clean_not_space hc]
  unfold atoi
  rw [show (String.mk (CleanString rhs)).data = CleanString rhs from rfl, hdrop]
  cases h : CleanString rhs with
  | nil => decide
  | cons c cs =>
    have hc := hall c (by rw [h]; exact List.mem_cons_self c cs)
    have hminus := clean_not_minus hc
    have hplus := clean_not_plus hc
    simp [hminus, hplus]

/-- C8 (counterexample to the claim as stated): the 32-bit conversion
wraps, so the parser does deliver negative update values — the sanitized
digit string `4294967295` converts to `-1`, and the negative literal
`-2147483648` is delivered as `-2147483648` itself, not as its positive
counterpart. -/
theorem C8_counterexample :
    parseLine "lamp0 = 4294967295" = ParseResult.update "lamp0" (-1) ∧
    parseLine "lamp0 = -2147483648" = ParseResult.update "lamp0" (-2147483648) :=
  ⟨by decide, by decide⟩

/-- C8 (amended): sanitization removes the minus sign before integer
conversion, so a negative decimal literal whose magnitude fits 32-bit
`int` is delivered as its positive counterpart (`-1` yields `1`, not `-1`
and not `0`); every update value lies in the signed 32-bit range, and an
update carries a negative value only through 32-bit wraparound — its
sanitized digit string must accumulate to at least `2^31` — never from
the minus sign itself. -/
theorem C8_amended_wrap_only :
    parseLine "lamp0 = -1" = ParseResult.update "lamp0" 1 ∧
    (∀ l n v, parseLine l = ParseResult.update n v →
      (-2147483648 ≤ v ∧ v < 2147483648) ∧
      (v < 0 → ∃ lhs rhs, splitAtEq (stripCR l.data) = some (lhs, rhs) ∧
          n = String.mk (CleanString lhs) ∧
          v = toInt32 (atoiDigits (CleanString rhs) 0) ∧
          2147483648 ≤ atoiDigits (CleanString rhs) 0)) := by
  refine ⟨by decide, ?_⟩
  intro l n v h
  simp only [parseLine] at h
  by_cases h0 : stripCR l.data = []
  · simp [h0] at h
  · simp only [h0, if_false] at h
    cases hsp : splitAtEq (stripCR l.data) with
    | none => rw [hsp] at h; exact absurd h (by simp)
    | some p =>
      obtain ⟨lhs, rhs⟩ := p
      rw [hsp] at h
      by_cases hst : String.mk (CleanString lhs) = "mame_start"
      · simp [hst] at h
      · by_cases hsp2 : String.mk (CleanString lhs) = "mame_stop"
        · simp [hst, hsp2] at h
        · simp only [hst, hsp2, if_false] at h
          injection h with h1 h2
          have hv : v = toInt32 (atoiDigits (CleanString rhs) 0) := by
            rw [← h2, atoi_clean_eq]
          have hlt := atoiDigits_lt (CleanString rhs) 0 (by decide)
          have hrange := toInt32_range (atoiDigits (CleanString rhs) 0)
          refine ⟨⟨by rw [hv]; exact hrange.1, by rw [hv]; exact hrange.2⟩, ?_⟩
          intro hneg
          refine ⟨lhs, rhs, rfl, h1.symm, hv, ?_⟩
          exact (toInt32_neg_iff hlt).mp (by rw [← hv]; exact hneg)

theorem C8_witness :
    parseLine "lamp0 = -1" = ParseResult.update "lamp0" 1 ∧
    (-2147483648 ≤ (-1 : Int) ∧ (-1 : Int) < 2147483648) :=
  ⟨C8_amended_wrap_only.1,
   (C8_amended_wrap_only.2 "lamp0 = 4294967295" "lamp0" (-1) (by decide)).1⟩

/-! ## Event-trace lemmas for one connection generation (claim C2) -/

theorem processLines_events_shape (lines : List String) :
    ∀ st : BridgeState, ∀ e ∈ (processLines st lines).2,
      (∃ l ∈ lines, ∃ t, parseLine l = ParseResult.start t ∧
          (e = Event.setTitle t ∨ e = Event.postStart t)) ∨
      (∃ c id v, e = Event.postUpdate c id v) := by
  induction lines with
  | nil =>
    intro st e he
    simp [processLines] at he
  | cons l ls ih =>
    intro st e he
    simp only [processLines, List.mem_append] at he
    rcases he with he | he
    · cases hp : parseLine l with
      | start t =>
        simp only [ProcessLine, hp, List.mem_cons, List.not_mem_nil, or_false] at he
        rcases he with rfl | rfl
        · exact Or.inl ⟨l, List.mem_cons_self l ls, t, hp, Or.inl rfl⟩
        · exact Or.inl ⟨l, List.mem_cons_self l ls, t, hp, Or.inr rfl⟩
      | stopLine => simp [ProcessLine, hp] at he
      | noop => simp [ProcessLine, hp] at he
      | update n v =>
        simp only [ProcessLine, hp, List.mem_map] at he
        obtain ⟨c, _, rfl⟩ := he
        exact Or.inr ⟨c, _, v, rfl⟩
    · rcases ih _ e he with ⟨l', hl', t, hp, hor⟩ | hupd
      · exact Or.inl ⟨l', List.mem_cons_of_mem l hl', t, hp, hor⟩
      · exact Or.inr hupd

/-- C2: in the event trace of one connection generation, exactly one stop
broadcast is posted, and it precedes the clearing of the registry and the
resetting of the title that follow the disconnect; the generation opens
with the title reset and the single forced start broadcast carrying the
sentinel title, which precedes every title update to a real (non-sentinel)
title of that generation.  (The hypothesis excludes the degenerate
producer that announces the sentinel itself as a session title.) -/
theorem C2_stop_start_ordering (st : BridgeState) (lines : List String)
    (hs : ∀ l ∈ lines, parseLine l ≠ ParseResult.start sentinelTitle) :
    ∃ pre,
      (connectionCycle st lines).2
        = pre ++ [Event.postStop, Event.setTitle sentinelTitle, Event.clearRegistry] ∧
      Event.postStop ∉ pre ∧
      Event.clearRegistry ∉ pre ∧
      pre.take 2 = [Event.setTitle sentinelTitle, Event.postStart sentinelTitle] ∧
      ((connectionCycle st lines).2.filter
          (fun e => decide (e = Event.postStart sentinelTitle))).length = 1 ∧
      ((connectionCycle st lines).2.filter
          (fun e => decide (e = Event.postStop))).length = 1 ∧
      (∀ i t, (connectionCycle st lines).2.get? i = some (Event.setTitle t) →
          t ≠ sentinelTitle → 1 < i) := by
  have hshape := processLines_events_shape lines (connectPrologue st).1
  have hmid_noStop : Event.postStop ∉ (processLines (connectPrologue st).1 lines).2 := by
    intro hm
    rcases hshape _ hm with ⟨l', hl', t, hp, hEq | hEq⟩ | ⟨c, id, v, hEq⟩ <;>
      exact Event.noConfusion hEq
  have hmid_noClear :
      Event.clearRegistry ∉ (processLines (connectPrologue st).1 lines).2 := by
    intro hm
    rcases hshape _ hm with ⟨l', hl', t, hp, hEq | hEq⟩ | ⟨c, id, v, hEq⟩ <;>
      exact Event.noConfusion hEq
  have hmid_noSentinelStart :
      ∀ e ∈ (processLines (connectPrologue st).1 lines).2,
        ¬ ((fun e => decide (e = Event.postStart sentinelTitle)) e = true) := by
    intro e hm hdec
    simp only [decide_eq_true_eq] at hdec
    subst hdec
    rcases hshape _ hm with ⟨l', hl', t, hp, hEq | hEq⟩ | ⟨c, id, v, hEq⟩
    · exact Event.noConfusion hEq
    · injection hEq with ht
      subst ht
      exact hs l' hl' hp
    · exact Event.noConfusion hEq
  have hmid_noStop' :
      ∀ e ∈ (processLines (connectPrologue st).1 lines).2,
        ¬ ((fun e => decide (e = Event.postStop)) e = true) := by
    intro e hm hdec
    simp only [decide_eq_true_eq] at hdec
    exact hmid_noStop (hdec ▸ hm)
  refine ⟨[Event.setTitle sentinelTitle, Event.postStart sentinelTitle]
      ++ (processLines (connectPrologue st).1 lines).2, rfl, ?_, ?_, rfl, ?_, ?_, ?_⟩
  · simp only [List.mem_append]
    rintro (h | h)
    · exact absurd h (by decide)
    · exact hmid_noStop h
  · simp only [List.mem_append]
    rintro (h | h)
    · exact absurd h (by decide)
    · exact hmid_noClear h
  · rw [show (connectionCycle st lines).2
        = ([Event.setTitle sentinelTitle, Event.postStart sentinelTitle]
            ++ (processLines (connectPrologue st).1 lines).2)
          ++ [Event.postStop, Event.setTitle sentinelTitle, Event.clearRegistry]
        from rfl]
    rw [List.filter_append, List.filter_append,
      List.filter_eq_nil_iff.mpr hmid_noSentinelStart]
    decide
  · rw [show (connectionCycle st lines).2
        = ([Event.setTitle sentinelTitle, Event.postStart sentinelTitle]
            ++ (processLines (connectPrologue st).1 lines).2)
          ++ [Event.postStop, Event.setTitle sentinelTitle, Event.clearRegistry]
        from rfl]
    rw [List.filter_append, List.filter_append,
      List.filter_eq_nil_iff.mpr hmid_noStop']
    decide
  · intro i t hget ht
    match i with
    | 0 =>
      rw [show (connectionCycle st lines).2.get? 0
          = some (Event.setTitle sentinelTitle) from rfl] at hget
      injection hget with h1
      injection h1 with h2
      exact absurd h2.symm ht
    | 1 =>
      rw [show (connectionCycle st lines).2.get? 1
          = some (Event.postStart sentinelTitle) from rfl] at hget
      injection hget with h1
      exact Event.noConfusion h1
    | (n+2) => omega

theorem C2_witness :
    ((connectionCycle initialBridgeState ["mame_start = pacman", "lamp0 = 1"]).2.filter
        (fun e => decide (e = Event.postStart sentinelTitle))).length = 1 ∧
    ((connectionCycle initialBridgeState ["mame_start = pacman", "lamp0 = 1"]).2.filter
        (fun e => decide (e = Event.postStop))).length = 1 := by
  obtain ⟨pre, _, _, _, _, h5, h6, _⟩ :=
    C2_stop_start_ordering initialBridgeState ["mame_start = pacman", "lamp0 = 1"]
      (by decide)
  exact ⟨h5, h6⟩

/-! ## Reverse-lookup reply (claim C6) -/

/-- C6 (amended): for every `Resolve(requesterHandle, id)` request the
responder leaves the state unchanged and sends exactly one reply — to the
requester, via the unicast channel, never the broadcast channel —
containing the pair `(id, reverseLookup id)` with the name carried in full
and the payload byte count declared explicitly as header size + name
length + 1 (the NUL terminator included). -/
theorem C6_amended_unicast_reply (st : BridgeState) (w id : Nat) :
    (respondGetIDString st w id).1 = st ∧
    (respondGetIDString st w id).2
      = [Event.sendCopyData w id (reverseLookup st id)
          (copydataHeaderSize + (reverseLookup st id).length + 1)] ∧
    (∀ e ∈ (respondGetIDString st w id).2, isBroadcast e = false) := by
  refine ⟨rfl, rfl, ?_⟩
  intro e he
  simp only [respondGetIDString, List.mem_cons, List.not_mem_nil, or_false] at he
  subst he
  rfl

theorem C6_witness :
    isBroadcast (Event.sendCopyData 3 0 (reverseLookup initialBridgeState 0)
      (copydataHeaderSize + (reverseLookup initialBridgeState 0).length + 1)) = false :=
  (C6_amended_unicast_reply initialBridgeState 3 0).2.2 _ (by simp [respondGetIDString])

theorem splitAtEq_append {xs ys : List Char} (h : '=' ∉ xs) :
    splitAtEq (xs ++ '=' :: ys) = some (xs, ys) := by
  induction xs with
  | nil => simp [splitAtEq]
  | cons c rest ih =>
    have hc : ¬ c = '=' := fun he => h (he ▸ List.mem_cons_self c rest)
    have hr : '=' ∉ rest := fun hm => h (List.mem_cons_of_mem c hm)
    simp [splitAtEq, hc, ih hr]

theorem CleanString_replicate_a (n : Nat) :
    CleanString (List.replicate n 'a') = List.replicate n 'a' := by
  rw [CleanString, List.filter_eq_self]
  intro c hc
  rw [List.eq_of_mem_replicate hc]
  decide

theorem replicate_a_ne_mame_start (n : Nat) :
    ¬ String.mk (List.replicate n 'a') = "mame_start" := by
  intro h
  have hd : List.replicate n 'a' = "mame_start".data := congrArg String.data h
  have hm : 'm' ∈ List.replicate n 'a' := by rw [hd]; decide
  exact absurd (List.eq_of_mem_replicate hm) (by decide)

theorem replicate_a_ne_mame_stop (n : Nat) :
    ¬ String.mk (List.replicate n 'a') = "mame_stop" := by
  intro h
  have hd : List.replicate n 'a' = "mame_stop".data := congrArg String.data h
  have hm : 'm' ∈ List.replicate n 'a' := by rw [hd]; decide
  exact absurd (List.eq_of_mem_replicate hm) (by decide)

theorem parseLine_longName (n : Nat) :
    parseLine (String.mk (List.replicate n 'a' ++ ['=', '1']))
      = ParseResult.update (String.mk (List.replicate n 'a')) 1 := by
  have hlast : (List.replicate n 'a' ++ ['=', '1']).getLast? = some '1' := by
    rw [show (List.replicate n 'a' ++ ['=', '1'])
        = (List.replicate n 'a' ++ ['=']) ++ ['1'] by simp]
    exact List.getLast?_concat _
  have hstrip : stripCR (List.replicate n 'a' ++ ['=', '1'])
      = List.replicate n 'a' ++ ['=', '1'] := by
    rw [stripCR, hlast]
    simp
  have hne : ¬ (List.replicate n 'a' ++ ['=', '1'] = []) := by simp
  have hsplit : splitAtEq (List.replicate n 'a' ++ ['=', '1'])
      = some (List.replicate n 'a', ['1']) :=
    splitAtEq_append (fun hm => absurd (List.eq_of_mem_replicate hm) (by decide))
  rw [parseLine]
  simp only [show (String.mk (List.replicate n 'a' ++ ['=', '1'])).data
      = List.replicate n 'a' ++ ['=', '1'] from rfl, hstrip, hne, if_false, hsplit]
  rw [CleanString_replicate_a]
  simp only [replicate_a_ne_mame_start n, replicate_a_ne_mame_stop n, if_false]
  rfl

theorem stateWithLongName_lookup (n : Nat) :
    reverseLookup (stateWithLongName n) 1 = String.mk (List.replicate n 'a') := by
  rw [stateWithLongName, ProcessLine, parseLine_longName n]
  rfl

/-- C6 (counterexample to the claim as stated): there is NO maximum length
bounding the name carried in the reverse-lookup replies — for every bound
`M` a reachable registry state holds a name of length `M + 1`, and the
reply transmits it in full. -/
theorem C6_counterexample :
    ¬ ∃ M : Nat, ∀ n w : Nat, ∀ e ∈ (respondGetIDString (stateWithLongName n) w 1).2,
        eventNameLen e ≤ M := by
  rintro ⟨M, hM⟩
  have h := hM (M + 1) 0
    (Event.sendCopyData 0 1 (reverseLookup (stateWithLongName (M + 1)) 1)
      (copydataHeaderSize + (reverseLookup (stateWithLongName (M + 1)) 1).length + 1))
    (by simp [respondGetIDString])
  rw [eventNameLen, stateWithLongName_lookup] at h
  simp only [show (String.mk (List.replicate (M + 1) 'a')).length
      = (List.replicate (M + 1) 'a').length from rfl,
    List.length_replicate] at h
  omega

/-! ## Read-loop line splitting (claim C7) -/

theorem findCR_lt {l : List Char} {p : Nat} (h : findCR l = some p) :
    p < l.length := by
  induction l generalizing p with
  | nil => simp [findCR] at h
  | cons c rest ih =>
    by_cases hc : c = '\r'
    · simp [findCR, hc] at h
      simp [List.length_cons]
      omega
    · simp [findCR, hc] at h
      obtain ⟨q, hq, rfl⟩ := h
      have := ih hq
      simp [List.length_cons]
      omega

theorem findCR_none_not_mem {l : List Char} (h : findCR l = none) : '\r' ∉ l := by
  induction l with
  | nil => simp
  | cons c rest ih =>
    by_cases hc : c = '\r'
    · simp [findCR, hc] at h
    · simp only [findCR, hc, if_false, Option.map_eq_none'] at h
      simp only [List.mem_cons]
      rintro (he | hm)
      · exact hc he.symm
      · exact ih h hm

theorem findCR_some_decomp {l : List Char} {p : Nat} (h : findCR l = some p) :
    l = l.take p ++ '\r' :: l.drop (p + 1) ∧ '\r' ∉ l.take p := by
  induction l generalizing p with
  | nil => simp [findCR] at h
  | cons c rest ih =>
    by_cases hc : c = '\r'
    · simp [findCR, hc] at h
      subst h
      subst hc
      simp
    · simp only [findCR, hc, if_false] at h
      cases hq : findCR rest with
      | none => rw [hq] at h; exact Option.noConfusion h
      | some q =>
        rw [hq] at h
        simp only [Option.map_some'] at h
        injection h with h
        subst h
        obtain ⟨hd, hnm⟩ := ih hq
        constructor
        · show c :: rest = (c :: rest).take (q + 1) ++ '\r' :: (c :: rest).drop (q + 2)
          rw [List.take_succ_cons, List.drop_succ_cons]
          conv_lhs => rw [hd]
          simp
        · rw [List.take_succ_cons]
          simp only [List.mem_cons]
          rintro (he | hm)
          · exact hc he.symm
          · exact hnm hm

theorem splitAtTerminator_no_term {term : Char} {l : List Char} (h : term ∉ l) :
    splitAtTerminator term l = ([], l) := by
  induction l with
  | nil => rfl
  | cons c rest ih =>
    have hc : ¬ c = term := fun he => h (he ▸ List.mem_cons_self c rest)
    have hr : term ∉ rest := fun hm => h (List.mem_cons_of_mem c hm)
    simp [splitAtTerminator, hc, ih hr]

theorem splitAtTerminator_append {term : Char} {xs ys : List Char} (h : term ∉ xs) :
    splitAtTerminator term (xs ++ term :: ys)
      = (xs :: (splitAtTerminator term ys).1, (splitAtTerminator term ys).2) := by
  induction xs with
  | nil => simp [splitAtTerminator]
  | cons c rest ih =>
    have hc : ¬ c = term := fun he => h (he ▸ List.mem_cons_self c rest)
    have hr : term ∉ rest := fun hm => h (List.mem_cons_of_mem c hm)
    simp only [List.cons_append, splitAtTerminator, hc, if_false, List.append_eq, ih hr]

theorem netSplit_eq (buf : List Char) :
    netSplitStep buf = splitAtTerminator '\r' buf := by
  have H : ∀ N, ∀ buf : List Char, buf.length ≤ N →
      netSplitStep buf = splitAtTerminator '\r' buf := by
    intro N
    induction N with
    | zero =>
      intro buf hb
      have hnil : buf = [] := List.eq_nil_of_length_eq_zero (Nat.le_zero.mp hb)
      subst hnil
      rw [netSplitStep.eq_def]
      rfl
    | succ N ih =>
      intro buf hb
      rw [netSplitStep.eq_def]
      cases hf : findCR buf with
      | none =>
        rw [splitAtTerminator_no_term (findCR_none_not_mem hf)]
      | some pos =>
        obtain ⟨hd, hnm⟩ := findCR_some_decomp hf
        have hlen : (buf.drop (pos + 1)).length ≤ N := by
          have := findCR_lt hf
          simp only [List.length_drop]
          omega
        simp only []
        conv_rhs => rw [hd]
        rw [splitAtTerminator_append hnm, ih _ hlen]
  exact H buf.length buf (le_refl _)

/-- C7 (counterexample to the claim as stated): the read loop's splitting
is NOT performed at a configurable terminator — on a newline-terminated
stream the code extracts no line (everything stays in the fragment),
whereas splitting at a configured `'\n'` terminator would extract the line
`"a=1"`. -/
theorem C7_counterexample :
    netSplitStep ("a=1\n".data) ≠ splitAtTerminator '\n' ("a=1\n".data) ∧
    splitAtTerminator '\n' ("a=1\n".data) = (["a=1".data], []) ∧
    netSplitStep ("a=1\n".data) = ([], "a=1\n".data) := by
  refine ⟨?_, by decide, ?_⟩
  · rw [netSplit_eq]
    decide
  · rw [netSplit_eq]
    decide

/-- C7 (amended): the read loop splits the buffer at the FIXED
carriage-return terminator: it behaves exactly like terminator-splitting
instantiated at `'\r'`, hands every complete line to `ProcessLine` in
order, and retains the trailing partial fragment for the next read. -/
theorem C7_amended_split_fixed_cr :
    (∀ buf : List Char, netSplitStep buf = splitAtTerminator '\r' buf) ∧
    (∀ st netBuffer chunk,
      handleChunk st netBuffer chunk
        = ((processLines st
              ((splitAtTerminator '\r' (netBuffer ++ chunk)).1.map String.mk)).1,
           (splitAtTerminator '\r' (netBuffer ++ chunk)).2,
           (processLines st
              ((splitAtTerminator '\r' (netBuffer ++ chunk)).1.map String.mk)).2)) := by
  refine ⟨netSplit_eq, ?_⟩
  intro st nb ch
  rw [handleChunk, netSplit_eq]
